import Mathlib

/-!
Shallow embedding of dig/xgraph/dataset/syn_dataset.py.

Tensors are modelled as lists: a node-feature matrix is a list of rows of
rationals, the 2 x E edge_index tensor is the list of its columns (source,
target), and a label tensor is a list over a label type that varies by
reader.  Random draws of torch.distributions.Categorical are modelled by an
oracle function giving the node sampled at each growth step, constrained to
the support of the distribution the code builds at that step.
-/

/-- Mirror of torch_geometric.data.Data as used in syn_dataset.py: node
feature matrix x, directed edge list edge_index (the columns of the 2 x E
tensor, in order), and a label tensor y with element type L. -/
structure Data (L : Type) where
  x : List (List ℚ)
  edge_index : List (ℕ × ℕ)
  y : List L
deriving DecidableEq

/-- The initial two-node graph both generators start from (syn_dataset.py
lines 163-165 and 180-182): features [[1],[1]], edge_index columns (0,1) and
(1,0), and the given label tensor. -/
def initData (y0 : List (List ℚ)) : Data (List ℚ) :=
  { x := [[1], [1]], edge_index := [(0, 1), (1, 0)], y := y0 }

/-- One iteration of the gen_class1 loop body at node i, where p is the node
the categorical sample returned: append feature row [1] and the two directed
edge columns (p, i) and (i, p). -/
def class1Step (d : Data (List ℚ)) (i p : ℕ) : Data (List ℚ) :=
  { x := d.x ++ [[1]], edge_index := d.edge_index ++ [(p, i), (i, p)], y := d.y }

/-- The gen_class1 state after the loop has run for i = 2 .. 2+n-1; pick i is
the node sampled at step i. -/
def gen1Aux (pick : ℕ → ℕ) (n : ℕ) : Data (List ℚ) :=
  (List.range' 2 n).foldl (fun d i => class1Step d i (pick i)) (initData [[0]])

/-- BA_LRP.gen_class1 (syn_dataset.py lines 162-177): preferential-attachment
growth from 2 to 20 nodes, label tensor [[0]]; the loop runs for
i in range(2, 20). -/
def gen_class1 (pick : ℕ → ℕ) : Data (List ℚ) :=
  gen1Aux pick 18

/-- One iteration of the gen_class2 loop body at node i with the list ps of
nodes sampled in the inner for-loop: append feature row [1], and for each
sample p (in draw order) the two directed edge columns (p, i) and (i, p). -/
def class2Step (d : Data (List ℚ)) (i : ℕ) (ps : List ℕ) : Data (List ℚ) :=
  { x := d.x ++ [[1]],
    edge_index := d.edge_index ++ ps.flatMap (fun p => [(p, i), (i, p)]),
    y := d.y }

/-- The samples drawn at step i of gen_class2: the inner loop runs
1 if i % 5 != 4 else 2 times, one categorical draw per run (the while-loop
only re-rolls duplicates, so each run contributes exactly one sample). -/
def class2Picks (pick : ℕ → ℕ → ℕ) (i : ℕ) : List ℕ :=
  if i % 5 ≠ 4 then [pick i 0] else [pick i 0, pick i 1]

/-- The gen_class2 state after the loop has run for i = 2 .. 2+n-1; pick i j
is the node kept by the j-th run of the inner loop at step i. -/
def gen2Aux (pick : ℕ → ℕ → ℕ) (n : ℕ) : Data (List ℚ) :=
  (List.range' 2 n).foldl (fun d i => class2Step d i (class2Picks pick i)) (initData [[1]])

/-- BA_LRP.gen_class2 (syn_dataset.py lines 179-200): inverse
preferential-attachment growth from 2 to 20 nodes, label tensor [[1]], with
two draws instead of one when i % 5 == 4. -/
def gen_class2 (pick : ℕ → ℕ → ℕ) : Data (List ℚ) :=
  gen2Aux pick 18

/-- A run of gen_class1: the categorical distribution at step i is over the i
existing nodes, so every sample is an existing node. -/
def ValidRun1 (pick : ℕ → ℕ) : Prop :=
  ∀ i, 2 ≤ i → i < 20 → pick i < i

/-- A run of gen_class2: every sample is an existing node, and on the
two-draw steps (i % 5 == 4) the while-loop guarantees the second kept sample
differs from the first. -/
def ValidRun2 (pick : ℕ → ℕ → ℕ) : Prop :=
  ∀ i, 2 ≤ i → i < 20 → pick i 0 < i ∧ pick i 1 < i ∧ (i % 5 = 4 → pick i 1 ≠ pick i 0)

/-- An edge list whose columns come in mirrored consecutive pairs
(a, b), (b, a): exactly how both generators store one undirected edge as two
directed entries. -/
def pairedUp : List (ℕ × ℕ) → Prop
  | [] => True
  | [_] => False
  | (a, b) :: (c, d) :: rest => c = b ∧ d = a ∧ pairedUp rest


/-- Indices, in ascending order and offset by k, of the nonzero entries of a
vector: the recursion behind the 1-D use of numpy.where. -/
def nonzeroIdx : List ℚ → ℕ → List ℕ
  | [], _ => []
  | a :: as, k => if a ≠ 0 then k :: nonzeroIdx as (k + 1) else nonzeroIdx as (k + 1)

/-- numpy.where on a 1-D vector, component [0]: the indices of its nonzero
entries, ascending.  This is the whole label derivation of
read_ba2motif_data: no one-hot validation happens. -/
def npWhere1 (v : List ℚ) : List ℕ :=
  nonzeroIdx v 0

/-- The number of nonzero entries of a row. -/
def countNonzero (r : List ℚ) : ℕ :=
  (r.filter (fun q => decide (q ≠ 0))).length

/-- Modelled from the spec: torch_geometric.utils.dense_to_sparse, called at
syn_dataset.py lines 19 and 31, is torch_geometric library code that is not
part of this repository.  The spec (SparseGraphConverter.toSparse) prescribes
one directed edge (i, j) per nonzero cell M[i][j], emitted in row-major scan
order. -/
def toSparse (M : List (List ℚ)) : List (ℕ × ℕ) :=
  (List.range M.length).flatMap fun i => (npWhere1 (M.getD i [])).map fun j => (i, j)

/-- read_ba2motif_data (syn_dataset.py lines 12-21) after unpickling: one Data
record per entry of dense_edges, indexing node_features and graph_labels at
the same position (an out-of-range index is a numpy IndexError, modelled as
Except.error); the y tensor is numpy.where of the label row, however many
nonzero entries that row has. -/
def read_ba2motif_data (dense_edges node_features : List (List (List ℚ)))
    (graph_labels : List (List ℚ)) : Except String (List (Data ℕ)) :=
  (List.range dense_edges.length).mapM fun idx =>
    if idx < node_features.length ∧ idx < graph_labels.length then
      Except.ok
        { x := node_features.getD idx [],
          edge_index := toSparse (dense_edges.getD idx []),
          y := npWhere1 (graph_labels.getD idx []) }
    else Except.error "IndexError"

/-- A boolean mask entry multiplied elementwise into a row, as in the
expression train_mask.reshape(-1, 1) * y_train: False zeroes the row, True
keeps it. -/
def maskMul (b : Bool) (r : List ℚ) : List ℚ :=
  r.map (fun q => (if b then 1 else 0) * q)

/-- Elementwise numpy + of two rows (equal-length rows in well-formed
input). -/
def addRows (r1 r2 : List ℚ) : List ℚ :=
  List.zipWith (· + ·) r1 r2

/-- Row node of the matrix
train_mask.reshape(-1,1) * y_train + val_mask.reshape(-1,1) * y_val +
test_mask.reshape(-1,1) * y_test computed at syn_dataset.py line 29. -/
def combinedRow (y_train y_val y_test : List (List ℚ))
    (train_mask val_mask test_mask : List Bool) (node : ℕ) : List ℚ :=
  addRows
    (addRows (maskMul (train_mask.getD node false) (y_train.getD node []))
      (maskMul (val_mask.getD node false) (y_val.getD node [])))
    (maskMul (test_mask.getD node false) (y_test.getD node []))

/-- numpy.where(y)[1] at syn_dataset.py line 30: the column indices of the
nonzero entries of the combined matrix, scanned row-major over its
y_train.length rows. -/
def read_syn_y (y_train y_val y_test : List (List ℚ))
    (train_mask val_mask test_mask : List Bool) : List ℕ :=
  (List.range y_train.length).flatMap fun node =>
    npWhere1 (combinedRow y_train y_val y_test train_mask val_mask test_mask node)

/-- The Data object built by read_syn_data (syn_dataset.py lines 24-36):
features as x, the derived label vector y, the sparse adjacency, and the
three masks attached as extra fields. -/
structure SynData where
  x : List (List ℚ)
  y : List ℕ
  edge_index : List (ℕ × ℕ)
  train_mask : List Bool
  val_mask : List Bool
  test_mask : List Bool
deriving DecidableEq

/-- read_syn_data (syn_dataset.py lines 24-36) after unpickling the 9-tuple;
edge_label_matrix is read but unused. -/
def read_syn_data (adj features : List (List ℚ))
    (y_train y_val y_test : List (List ℚ))
    (train_mask val_mask test_mask : List Bool)
    (edge_label_matrix : List (List ℚ)) : SynData :=
  { x := features,
    y := read_syn_y y_train y_val y_test train_mask val_mask test_mask,
    edge_index := toSparse adj,
    train_mask := train_mask,
    val_mask := val_mask,
    test_mask := test_mask }

/-- A one-hot row with its class index: entry j is nonzero exactly when
j = c. -/
def isOneHot (v : List ℚ) (c : ℕ) : Prop :=
  c < v.length ∧ ∀ j, j < v.length → (v.getD j 0 ≠ 0 ↔ j = c)

/-- Modelled from the spec: the row the spec says label derivation selects
for a node - its y_train row where train_mask holds, else its y_val row where
val_mask holds, else its y_test row. -/
def pickRow (y_train y_val y_test : List (List ℚ))
    (train_mask val_mask test_mask : List Bool) (node : ℕ) : List ℚ :=
  if train_mask.getD node false then y_train.getD node []
  else if val_mask.getD node false then y_val.getD node []
  else y_test.getD node []

/-- Exactly one of the three masks holds at a node. -/
def oneMask (train_mask val_mask test_mask : List Bool) (node : ℕ) : Prop :=
  (train_mask.getD node false = true ∧ val_mask.getD node false = false ∧
    test_mask.getD node false = false) ∨
  (train_mask.getD node false = false ∧ val_mask.getD node false = true ∧
    test_mask.getD node false = false) ∨
  (train_mask.getD node false = false ∧ val_mask.getD node false = false ∧
    test_mask.getD node false = true)

/-- Every entry of a row is zero. -/
def AllZero (v : List ℚ) : Prop :=
  ∀ q ∈ v, q = 0

instance (v : List ℚ) : Decidable (AllZero v) := by
  unfold AllZero
  infer_instance

instance (v : List ℚ) (c : ℕ) : Decidable (isOneHot v c) := by
  unfold isOneHot
  infer_instance

instance (train_mask val_mask test_mask : List Bool) (node : ℕ) :
    Decidable (oneMask train_mask val_mask test_mask node) := by
  unfold oneMask
  infer_instance


instance {L : Type} : Inhabited (Data L) :=
  ⟨{ x := [], edge_index := [], y := [] }⟩

/-- One slice-table entry: the half-open ranges one record occupies inside
the concatenated feature, edge, and label arrays. -/
structure Slice where
  xs : ℕ
  xe : ℕ
  es : ℕ
  ee : ℕ
  ys : ℕ
  ye : ℕ
deriving DecidableEq

instance : Inhabited Slice :=
  ⟨{ xs := 0, xe := 0, es := 0, ee := 0, ys := 0, ye := 0 }⟩

/-- The collated bundle: concatenated arrays plus the slice table. -/
structure CollatedDataset (L : Type) where
  x : List (List ℚ)
  edge_index : List (ℕ × ℕ)
  y : List L
  slices : List Slice
deriving DecidableEq

/-- Shift a slice entry by the sizes of a record placed in front of it. -/
def shiftSlice (dx de dy : ℕ) (s : Slice) : Slice :=
  { xs := s.xs + dx, xe := s.xe + dx, es := s.es + de, ee := s.ee + de,
    ys := s.ys + dy, ye := s.ye + dy }

/-- Modelled from the spec: InMemoryDataset.collate is torch_geometric
library code that is not part of this repository.  The spec (GraphCollator)
prescribes: concatenate features, edge lists and labels in input order,
adding to every node index of record k the total node count of records
0..k-1, and build the slice table from cumulative offsets, one entry per
record; the empty input gives the empty bundle. -/
def collate {L : Type} : List (Data L) → CollatedDataset L
  | [] => { x := [], edge_index := [], y := [], slices := [] }
  | r :: rs =>
    { x := r.x ++ (collate rs).x,
      edge_index := r.edge_index ++
        (collate rs).edge_index.map (fun e => (e.1 + r.x.length, e.2 + r.x.length)),
      y := r.y ++ (collate rs).y,
      slices :=
        { xs := 0, xe := r.x.length, es := 0, ee := r.edge_index.length,
          ys := 0, ye := r.y.length } ::
          (collate rs).slices.map (shiftSlice r.x.length r.edge_index.length r.y.length) }

/-- The half-open segment [s, e) of a list. -/
def seg {α : Type} (l : List α) (s e : ℕ) : List α :=
  (l.drop s).take (e - s)

/-- BA_LRP.process (syn_dataset.py lines 202-213) on the generation path (no
raw file present): each loop iteration appends one gen_class1 graph then one
gen_class2 graph, num_per_class times; pick1 k / pick2 k are the random draws
used for the k-th pair. -/
def ba_lrp_data_list (num_per_class : ℕ) (pick1 : ℕ → ℕ → ℕ)
    (pick2 : ℕ → ℕ → ℕ → ℕ) : List (Data (List ℚ)) :=
  (List.range num_per_class).flatMap fun k =>
    [gen_class1 (pick1 k), gen_class2 (pick2 k)]

/-- The bundle BA_LRP.process saves: the collation of the generated list. -/
def ba_lrp_process (num_per_class : ℕ) (pick1 : ℕ → ℕ → ℕ)
    (pick2 : ℕ → ℕ → ℕ → ℕ) : CollatedDataset (List ℚ) :=
  collate (ba_lrp_data_list num_per_class pick1 pick2)

/-- SynGraphDataset.process (syn_dataset.py lines 80-100), BA_2Motifs branch.
data_list starts as the freshly read records (raw).  The pre_filter branch
REPLACES data_list by [self.get(idx) for idx in range(len(self))] - records
reconstructed from the already loaded self.data/self.slices, modelled by the
optional record-list view loaded - then filters those and collates them back
into self; the pre_transform branch does the same replace-then-map, seeing
the filtered list when the filter branch ran before it.  On a first-time
process nothing is loaded (loaded = none) and self.get fails, modelled as
Except.error.  The saved bundle is the collation of the final data_list. -/
def syn_process {L : Type} (pre_filter : Option (Data L → Bool))
    (pre_transform : Option (Data L → Data L))
    (loaded : Option (List (Data L))) (raw : List (Data L)) :
    Except String (CollatedDataset L) :=
  match pre_filter with
  | none =>
    match pre_transform with
    | none => Except.ok (collate raw)
    | some t =>
      match loaded with
      | none => Except.error "AttributeError: self.data is not loaded"
      | some recs => Except.ok (collate (recs.map t))
  | some p =>
    match loaded with
    | none => Except.error "AttributeError: self.data is not loaded"
    | some recs =>
      match pre_transform with
      | none => Except.ok (collate (recs.filter p))
      | some t => Except.ok (collate ((recs.filter p).map t))

/-- Out-degree of node v in edge list E: the count
(data.edge_index[0] == node_idx).float().sum() computed at syn_dataset.py
lines 169 and 185. -/
def deg (E : List (ℕ × ℕ)) (v : ℕ) : ℕ :=
  (E.filter (fun e => e.1 == v)).length

/-- The degree sum the class-1 sampling divides by when the graph has m
nodes (line 170). -/
def sumDeg (E : List (ℕ × ℕ)) (m : ℕ) : ℕ :=
  ((List.range m).map (deg E)).sum

/-- The epsilon = 1e-30 added to every degree in gen_class2 (line 183). -/
def epsilon : ℚ :=
  1 / 10 ^ 30

/-- The reciprocal-degree weight of node v in the gen_class2 sampling
(line 185). -/
def weight2 (E : List (ℕ × ℕ)) (v : ℕ) : ℚ :=
  1 / ((deg E v : ℚ) + epsilon)

/-- Walks over a directed edge list. -/
inductive Reach (E : List (ℕ × ℕ)) : ℕ → ℕ → Prop
  | refl (a : ℕ) : Reach E a a
  | tail {a b c : ℕ} : Reach E a b → (b, c) ∈ E → Reach E a c

/-- The structural invariant both generators maintain on a graph with m
nodes: node count m, every edge endpoint a valid node index, mirrored edges
(the list is symmetric), every node the source of at least one edge (degree
at least 1), and every node reachable from node 0 (connectivity). -/
structure GoodGraph (m : ℕ) (d : Data (List ℚ)) : Prop where
  nodes : d.x.length = m
  ends : ∀ e ∈ d.edge_index, e.1 < m ∧ e.2 < m
  symm : ∀ a b, (a, b) ∈ d.edge_index → (b, a) ∈ d.edge_index
  source : ∀ v, v < m → ∃ e ∈ d.edge_index, e.1 = v
  conn : ∀ v, v < m → Reach d.edge_index 0 v

/-! Helper lemmas. -/

theorem range'_snoc (s n : ℕ) : List.range' s (n + 1) = List.range' s n ++ [s + n] := by
  simpa using @List.range'_concat 1 s n

theorem gen1Aux_succ (pick : ℕ → ℕ) (n : ℕ) :
    gen1Aux pick (n + 1) = class1Step (gen1Aux pick n) (2 + n) (pick (2 + n)) := by
  unfold gen1Aux
  rw [range'_snoc]
  simp

theorem gen2Aux_succ (pick : ℕ → ℕ → ℕ) (n : ℕ) :
    gen2Aux pick (n + 1) = class2Step (gen2Aux pick n) (2 + n) (class2Picks pick (2 + n)) := by
  unfold gen2Aux
  rw [range'_snoc]
  simp

theorem pairedUp_append (E F : List (ℕ × ℕ)) (hE : pairedUp E) (hF : pairedUp F) :
    pairedUp (E ++ F) := by
  match E, hE with
  | [], _ => simpa using hF
  | [e], hE => exact hE.elim
  | (a, b) :: (c, d) :: rest, hE =>
    obtain ⟨h1, h2, h3⟩ := hE
    exact ⟨h1, h2, pairedUp_append rest F h3 hF⟩

theorem pairedUp_mirror (ps : List ℕ) (i : ℕ) :
    pairedUp (ps.flatMap (fun p => [(p, i), (i, p)])) := by
  induction ps with
  | nil => trivial
  | cons p rest ih =>
    rw [List.flatMap_cons]
    exact pairedUp_append [(p, i), (i, p)] _ ⟨rfl, rfl, trivial⟩ ih

theorem pairedUp_gen1Aux (pick : ℕ → ℕ) (n : ℕ) : pairedUp (gen1Aux pick n).edge_index := by
  induction n with
  | zero => exact ⟨rfl, rfl, trivial⟩
  | succ n ih =>
    rw [gen1Aux_succ]
    exact pairedUp_append _ _ ih ⟨rfl, rfl, trivial⟩

theorem pairedUp_gen2Aux (pick : ℕ → ℕ → ℕ) (n : ℕ) : pairedUp (gen2Aux pick n).edge_index := by
  induction n with
  | zero => exact ⟨rfl, rfl, trivial⟩
  | succ n ih =>
    rw [gen2Aux_succ]
    exact pairedUp_append _ _ ih (pairedUp_mirror _ _)

theorem gen1Aux_x_length (pick : ℕ → ℕ) (n : ℕ) : (gen1Aux pick n).x.length = 2 + n := by
  induction n with
  | zero => rfl
  | succ n ih =>
    rw [gen1Aux_succ]
    simp [class1Step, ih]
    omega

theorem gen1Aux_edge_length (pick : ℕ → ℕ) (n : ℕ) :
    (gen1Aux pick n).edge_index.length = 2 + 2 * n := by
  induction n with
  | zero => rfl
  | succ n ih =>
    rw [gen1Aux_succ]
    simp [class1Step, ih]
    omega

theorem gen1Aux_y (pick : ℕ → ℕ) (n : ℕ) : (gen1Aux pick n).y = [[0]] := by
  induction n with
  | zero => rfl
  | succ n ih =>
    rw [gen1Aux_succ]
    simpa [class1Step] using ih

theorem class2Picks_length (pick pick₀ : ℕ → ℕ → ℕ) (i : ℕ) :
    (class2Picks pick i).length = (class2Picks pick₀ i).length := by
  unfold class2Picks
  split <;> rfl

theorem gen2Aux_x_length (pick : ℕ → ℕ → ℕ) (n : ℕ) : (gen2Aux pick n).x.length = 2 + n := by
  induction n with
  | zero => rfl
  | succ n ih =>
    rw [gen2Aux_succ]
    simp [class2Step, ih]
    omega

theorem gen2Aux_y (pick : ℕ → ℕ → ℕ) (n : ℕ) : (gen2Aux pick n).y = [[1]] := by
  induction n with
  | zero => rfl
  | succ n ih =>
    rw [gen2Aux_succ]
    simpa [class2Step] using ih

theorem flatMap_mirror_length (ps : List ℕ) (i : ℕ) :
    (ps.flatMap (fun p => [(p, i), (i, p)])).length = 2 * ps.length := by
  induction ps with
  | nil => rfl
  | cons p rest ih =>
    rw [List.flatMap_cons]
    simp [ih]
    omega

theorem gen2Aux_edge_length_indep (pick : ℕ → ℕ → ℕ) (n : ℕ) :
    (gen2Aux pick n).edge_index.length = (gen2Aux (fun _ _ => 0) n).edge_index.length := by
  induction n with
  | zero => rfl
  | succ n ih =>
    rw [gen2Aux_succ, gen2Aux_succ]
    simp only [class2Step, List.length_append, flatMap_mirror_length]
    rw [ih, class2Picks_length pick (fun _ _ => 0)]

/-- Claim C1 counterexample: the all-zeros run is a genuine run of gen_class1
(every sample is an existing node), yet its edge_index holds 38 directed
entries, not the 40 the claim states. -/
theorem gen_class1_count_ne_forty :
    ValidRun1 (fun _ => 0) ∧ ¬ (gen_class1 (fun _ => 0)).edge_index.length = 40 := by
  constructor
  · intro i h2 _
    change 0 < i
    omega
  · rw [gen_class1, gen1Aux_edge_length]
    decide

/-- Claim C1 (amended): every run of gen_class1 yields exactly 20 nodes,
label tensor [[0]], and 19 undirected edge-pairs stored as 38 directed
edge_index entries in mirrored consecutive pairs. -/
theorem gen_class1_shape (pick : ℕ → ℕ) :
    (gen_class1 pick).x.length = 20 ∧
    (gen_class1 pick).edge_index.length = 38 ∧
    (gen_class1 pick).y = [[0]] ∧
    pairedUp (gen_class1 pick).edge_index := by
  refine ⟨?_, ?_, ?_, ?_⟩
  · rw [gen_class1, gen1Aux_x_length]
  · rw [gen_class1, gen1Aux_edge_length]
  · rw [gen_class1, gen1Aux_y]
  · unfold gen_class1
    generalize (18 : ℕ) = n
    exact pairedUp_gen1Aux pick n

/-- Claim C2 counterexample: the run that always keeps node 0, and node 1 as
the second draw on two-draw steps, is a genuine run of gen_class2, yet its
edge_index holds 46 directed entries, not the 44 the claim states. -/
theorem gen_class2_count_ne_fortyfour :
    ValidRun2 (fun _ j => j) ∧ ¬ (gen_class2 (fun _ j => j)).edge_index.length = 44 := by
  refine ⟨?_, ?_⟩
  · intro i h2 _
    refine ⟨?_, ?_, fun _ => ?_⟩
    · change 0 < i
      omega
    · change 1 < i
      omega
    · change (1 : ℕ) ≠ 0
      decide
  · rw [gen_class2, gen2Aux_edge_length_indep]
    decide

/-- Claim C2 (amended): every run of gen_class2 yields exactly 20 nodes,
label tensor [[1]], and 23 undirected edge-pairs stored as 46 directed
edge_index entries in mirrored consecutive pairs: one pair from the seed
graph, one per growth step, and one extra at each of i = 4, 9, 14, 19. -/
theorem gen_class2_shape (pick : ℕ → ℕ → ℕ) :
    (gen_class2 pick).x.length = 20 ∧
    (gen_class2 pick).edge_index.length = 46 ∧
    (gen_class2 pick).y = [[1]] ∧
    pairedUp (gen_class2 pick).edge_index := by
  refine ⟨?_, ?_, ?_, ?_⟩
  · rw [gen_class2, gen2Aux_x_length]
  · rw [gen_class2, gen2Aux_edge_length_indep]
    decide
  · rw [gen_class2, gen2Aux_y]
  · unfold gen_class2
    generalize (18 : ℕ) = n
    exact pairedUp_gen2Aux pick n

theorem mapM_ok_of_forall {α : Type} (l : List ℕ) (f : ℕ → Except String α) (g : ℕ → α)
    (h : ∀ i ∈ l, f i = Except.ok (g i)) : l.mapM f = Except.ok (l.map g) := by
  induction l with
  | nil => rfl
  | cons a as ih =>
    rw [List.mapM_cons, h a (by simp), ih (fun i hi => h i (by simp [hi]))]
    rfl

theorem nonzeroIdx_allZero (v : List ℚ) (k : ℕ) (h : AllZero v) : nonzeroIdx v k = [] := by
  induction v generalizing k with
  | nil => rfl
  | cons a as ih =>
    have ha : a = 0 := h a (by simp)
    rw [nonzeroIdx, if_neg (by simp [ha]), ih (k + 1) (fun q hq => h q (by simp [hq]))]

theorem mem_nonzeroIdx (v : List ℚ) (k m : ℕ) :
    m ∈ nonzeroIdx v k ↔ ∃ j, j < v.length ∧ v.getD j 0 ≠ 0 ∧ m = k + j := by
  induction v generalizing k with
  | nil => simp [nonzeroIdx]
  | cons a as ih =>
    rw [nonzeroIdx]
    by_cases ha : a ≠ 0
    · rw [if_pos ha]
      constructor
      · intro hm
        rcases List.mem_cons.mp hm with hm | hm
        · exact ⟨0, by simp, by simpa using ha, by omega⟩
        · obtain ⟨j, hj, hne, hm⟩ := (ih (k + 1)).mp hm
          exact ⟨j + 1, by simpa using Nat.succ_lt_succ hj, by simpa using hne, by omega⟩
      · rintro ⟨j, hj, hne, rfl⟩
        match j with
        | 0 => exact List.mem_cons_self _ _
        | j + 1 =>
          refine List.mem_cons_of_mem _ ((ih (k + 1)).mpr ⟨j, ?_, ?_, by omega⟩)
          · simpa using Nat.lt_of_succ_lt_succ hj
          · simpa using hne
    · rw [if_neg ha]
      constructor
      · intro hm
        obtain ⟨j, hj, hne, hm⟩ := (ih (k + 1)).mp hm
        exact ⟨j + 1, by simpa using Nat.succ_lt_succ hj, by simpa using hne, by omega⟩
      · rintro ⟨j, hj, hne, rfl⟩
        match j with
        | 0 => exact absurd (by simpa using hne) ha
        | j + 1 =>
          refine (ih (k + 1)).mpr ⟨j, ?_, ?_, by omega⟩
          · simpa using Nat.lt_of_succ_lt_succ hj
          · simpa using hne

theorem nonzeroIdx_length (v : List ℚ) (k : ℕ) :
    (nonzeroIdx v k).length = countNonzero v := by
  induction v generalizing k with
  | nil => rfl
  | cons a as ih =>
    by_cases ha : a ≠ 0
    · rw [nonzeroIdx, if_pos ha]
      have hcn : countNonzero (a :: as) = countNonzero as + 1 := by
        simp [countNonzero, List.filter_cons, ha]
      rw [hcn, List.length_cons, ih (k + 1)]
    · rw [nonzeroIdx, if_neg ha]
      have hcn : countNonzero (a :: as) = countNonzero as := by
        simp [countNonzero, List.filter_cons, ha]
      rw [hcn, ih (k + 1)]

theorem npWhere1_length (v : List ℚ) : (npWhere1 v).length = countNonzero v :=
  nonzeroIdx_length v 0

theorem mem_npWhere1 (v : List ℚ) (j : ℕ) :
    j ∈ npWhere1 v ↔ j < v.length ∧ v.getD j 0 ≠ 0 := by
  rw [npWhere1, mem_nonzeroIdx]
  constructor
  · rintro ⟨i, hi, hne, rfl⟩
    have h0 : (0 : ℕ) + i = i := by omega
    rw [h0]
    exact ⟨hi, hne⟩
  · rintro ⟨hj, hne⟩
    exact ⟨j, hj, hne, by omega⟩

theorem nonzeroIdx_oneHot (v : List ℚ) (c k : ℕ) (hc : c < v.length)
    (h : ∀ j, j < v.length → (v.getD j 0 ≠ 0 ↔ j = c)) :
    nonzeroIdx v k = [k + c] := by
  induction v generalizing c k with
  | nil => simp at hc
  | cons a as ih =>
    match c with
    | 0 =>
      have ha : a ≠ 0 := by simpa using (h 0 (by simp)).mpr rfl
      have hz : AllZero as := by
        intro q hq
        obtain ⟨j, hj, rfl⟩ := List.getElem_of_mem hq
        by_contra hne
        have hiff := h (j + 1) (by simpa using Nat.succ_lt_succ hj)
        simp only [List.getD_cons_succ] at hiff
        have hgd : as.getD j 0 ≠ 0 := by
          rw [List.getD_eq_getElem as 0 hj]
          exact hne
        have := hiff.mp hgd
        omega
      rw [nonzeroIdx, if_pos ha, nonzeroIdx_allZero as (k + 1) hz]
      simp
    | c + 1 =>
      have h0 := h 0 (by simp)
      simp only [List.getD_cons_zero] at h0
      have ha : ¬ (a ≠ 0) := fun hne => by
        have := h0.mp hne
        omega
      rw [nonzeroIdx, if_neg ha]
      have hrec : nonzeroIdx as (k + 1) = [(k + 1) + c] := by
        refine ih c (k + 1) (by simpa using Nat.lt_of_succ_lt_succ hc) ?_
        intro j hj
        have hj1 := h (j + 1) (by simpa using Nat.succ_lt_succ hj)
        simp only [List.getD_cons_succ] at hj1
        constructor
        · intro hne
          have := hj1.mp hne
          omega
        · intro hjc
          exact hj1.mpr (by omega)
      rw [hrec]
      congr 1
      omega

theorem npWhere1_oneHot (v : List ℚ) (c : ℕ) (h : isOneHot v c) : npWhere1 v = [c] := by
  obtain ⟨hc, hiff⟩ := h
  simpa using nonzeroIdx_oneHot v c 0 hc hiff

theorem map_getD_range {α β : Type} (d : α) (g : α → β) (l : List α) :
    (List.range l.length).map (fun i => g (l.getD i d)) = l.map g := by
  apply List.ext_getElem
  · simp
  · intro n h1 h2
    simp only [List.getElem_map, List.getElem_range]
    rw [List.getD_eq_getElem l d (by simpa using h2)]

/-- Claim C5: toSparse emits a directed edge (i, j) exactly for the nonzero
cells M[i][j] (with in-range indices), its edge count is the total number of
nonzero cells, and an all-zero matrix yields an empty edge list. -/
theorem toSparse_spec (M : List (List ℚ)) :
    (∀ i j, (i, j) ∈ toSparse M ↔
      i < M.length ∧ j < (M.getD i []).length ∧ (M.getD i []).getD j 0 ≠ 0) ∧
    (toSparse M).length = (M.map countNonzero).sum ∧
    ((∀ r ∈ M, AllZero r) → toSparse M = []) := by
  refine ⟨?_, ?_, ?_⟩
  · intro i j
    rw [toSparse]
    simp only [List.mem_flatMap, List.mem_range, List.mem_map, Prod.mk.injEq]
    constructor
    · rintro ⟨a, ha, b, hb, rfl, rfl⟩
      obtain ⟨h1, h2⟩ := (mem_npWhere1 _ _).mp hb
      exact ⟨ha, h1, h2⟩
    · rintro ⟨hi, hj, hne⟩
      exact ⟨i, hi, j, (mem_npWhere1 _ _).mpr ⟨hj, hne⟩, rfl, rfl⟩
  · rw [toSparse, List.length_flatMap]
    have h1 : List.map (List.length ∘ fun i => (npWhere1 (M.getD i [])).map (fun j => (i, j)))
        (List.range M.length) =
        List.map (fun i => countNonzero (M.getD i [])) (List.range M.length) := by
      apply List.map_congr_left
      intro i _
      simp [npWhere1_length]
    rw [h1, map_getD_range]
  · intro hz
    rw [List.eq_nil_iff_forall_not_mem]
    intro e he
    rw [toSparse] at he
    simp only [List.mem_flatMap, List.mem_range, List.mem_map] at he
    obtain ⟨a, ha, b, hb, rfl⟩ := he
    obtain ⟨hb1, hb2⟩ := (mem_npWhere1 _ _).mp hb
    have hrow : AllZero (M.getD a []) := by
      have hmem : M.getD a [] ∈ M := by
        rw [List.getD_eq_getElem M [] ha]
        exact List.getElem_mem ha
      exact hz _ hmem
    apply hb2
    rw [List.getD_eq_getElem _ 0 hb1]
    exact hrow _ (List.getElem_mem hb1)

/-- Claim C5 witness: toSparse on the all-zero 2 x 2 matrix returns the empty
edge list, by the third component of toSparse_spec at that matrix. -/
theorem toSparse_spec_witness : toSparse [[0, 0], [0, 0]] = [] :=
  (toSparse_spec [[0, 0], [0, 0]]).2.2 (by decide)

/-- Claim C3 counterexample: a multi-graph input whose only label vector is
[0, 0] (no nonzero entry) is read without any error: the reader returns the
record with an empty label tensor y instead of raising MalformedInputError. -/
theorem ba2motif_zero_onehot_no_error :
    read_ba2motif_data [[[0]]] [[[1]]] [[0, 0]] =
      Except.ok [{ x := [[1]], edge_index := [], y := [] }] := by
  rfl

/-- Claim C3 (amended): whenever node_features and graph_labels are at least
as long as dense_edges, read_ba2motif_data succeeds and returns exactly one
record per adjacency matrix, with x the feature matrix, edge_index its sparse
conversion, and y the numpy.where index list of the label row; it performs no
one-hot validation and never raises MalformedInputError (a [0, 0] row yields
an empty y, a multi-hot row a multi-entry y), and its only failure mode is an
IndexError when node_features or graph_labels is shorter than dense_edges. -/
theorem read_ba2motif_characterization (dense_edges node_features : List (List (List ℚ)))
    (graph_labels : List (List ℚ))
    (hn : dense_edges.length ≤ node_features.length)
    (hg : dense_edges.length ≤ graph_labels.length) :
    read_ba2motif_data dense_edges node_features graph_labels =
      Except.ok ((List.range dense_edges.length).map fun idx =>
        { x := node_features.getD idx [],
          edge_index := toSparse (dense_edges.getD idx []),
          y := npWhere1 (graph_labels.getD idx []) }) := by
  rw [read_ba2motif_data]
  apply mapM_ok_of_forall
  intro i hi
  rw [List.mem_range] at hi
  rw [if_pos ⟨Nat.lt_of_lt_of_le hi hn, Nat.lt_of_lt_of_le hi hg⟩]

/-- Claim C3 witness: on a concrete two-graph input with one-hot labels
[0, 1] and [1, 0], the reader returns records labelled [1] and [0] in input
order. -/
theorem read_ba2motif_characterization_witness :
    read_ba2motif_data [[[0, 1], [1, 0]], [[0, 0], [0, 0]]]
        [[[1], [1]], [[1], [1]]] [[0, 1], [1, 0]] =
      Except.ok [{ x := [[1], [1]], edge_index := [(0, 1), (1, 0)], y := [1] },
        { x := [[1], [1]], edge_index := [], y := [0] }] := by
  have h := read_ba2motif_characterization [[[0, 1], [1, 0]], [[0, 0], [0, 0]]]
    [[[1], [1]], [[1], [1]]] [[0, 1], [1, 0]] (by decide) (by decide)
  rw [h]
  rfl

theorem maskMul_true (r : List ℚ) : maskMul true r = r := by
  simp [maskMul]

theorem maskMul_false_allZero (r : List ℚ) : AllZero (maskMul false r) := by
  intro q hq
  rw [maskMul] at hq
  obtain ⟨a, _, rfl⟩ := List.mem_map.mp hq
  simp

theorem maskMul_length (b : Bool) (r : List ℚ) : (maskMul b r).length = r.length := by
  simp [maskMul]

theorem addRows_allZero_left : ∀ z r : List ℚ, AllZero z → z.length = r.length → addRows z r = r
  | [], r, _, hlen => by
    have hr : r = [] := List.length_eq_zero.mp (by simpa using hlen.symm)
    subst hr
    rfl
  | z :: zs, r, hz, hlen => by
    match r with
    | [] => simp at hlen
    | a :: as =>
      rw [addRows, List.zipWith_cons_cons, hz z (by simp), zero_add]
      rw [show List.zipWith (· + ·) zs as = addRows zs as from rfl,
        addRows_allZero_left zs as (fun q hq => hz q (by simp [hq])) (by simpa using hlen)]

theorem addRows_allZero_right : ∀ r z : List ℚ, AllZero z → z.length = r.length → addRows r z = r
  | r, [], _, hlen => by
    have hr : r = [] := List.length_eq_zero.mp (by simpa using hlen.symm)
    subst hr
    rfl
  | r, z :: zs, hz, hlen => by
    match r with
    | [] => simp at hlen
    | a :: as =>
      rw [addRows, List.zipWith_cons_cons, hz z (by simp), add_zero]
      rw [show List.zipWith (· + ·) as zs = addRows as zs from rfl,
        addRows_allZero_right as zs (fun q hq => hz q (by simp [hq])) (by simpa using hlen)]

theorem addRows_allZero : ∀ a b : List ℚ, AllZero a → AllZero b → AllZero (addRows a b)
  | [], b, _, _ => by
    intro q hq
    rw [addRows, List.zipWith_nil_left] at hq
    exact absurd hq (List.not_mem_nil q)
  | x :: xs, [], _, _ => by
    intro q hq
    rw [addRows, List.zipWith_nil_right] at hq
    exact absurd hq (List.not_mem_nil q)
  | x :: xs, y :: ys, ha, hb => by
    intro q hq
    rw [addRows, List.zipWith_cons_cons] at hq
    rcases List.mem_cons.mp hq with rfl | hq
    · rw [ha x (by simp), hb y (by simp), add_zero]
    · exact addRows_allZero xs ys (fun q hq => ha q (by simp [hq]))
        (fun q hq => hb q (by simp [hq])) q hq

theorem addRows_length (a b : List ℚ) : (addRows a b).length = min a.length b.length := by
  simp [addRows]

theorem combinedRow_eq_pickRow (y_train y_val y_test : List (List ℚ))
    (train_mask val_mask test_mask : List Bool) (node : ℕ)
    (hm : oneMask train_mask val_mask test_mask node)
    (hl1 : (y_val.getD node []).length = (y_train.getD node []).length)
    (hl2 : (y_test.getD node []).length = (y_train.getD node []).length) :
    combinedRow y_train y_val y_test train_mask val_mask test_mask node =
      pickRow y_train y_val y_test train_mask val_mask test_mask node := by
  rcases hm with ⟨h1, h2, h3⟩ | ⟨h1, h2, h3⟩ | ⟨h1, h2, h3⟩ <;>
    rw [combinedRow, pickRow, h1, h2, h3]
  · rw [maskMul_true]
    have hin : addRows (y_train.getD node []) (maskMul false (y_val.getD node [])) =
        y_train.getD node [] :=
      addRows_allZero_right _ _ (maskMul_false_allZero _) (by rw [maskMul_length, hl1])
    rw [hin]
    have hout : addRows (y_train.getD node []) (maskMul false (y_test.getD node [])) =
        y_train.getD node [] :=
      addRows_allZero_right _ _ (maskMul_false_allZero _) (by rw [maskMul_length, hl2])
    rw [hout]
    rfl
  · rw [maskMul_true]
    have hin : addRows (maskMul false (y_train.getD node [])) (y_val.getD node []) =
        y_val.getD node [] :=
      addRows_allZero_left _ _ (maskMul_false_allZero _) (by rw [maskMul_length, hl1])
    rw [hin]
    have hout : addRows (y_val.getD node []) (maskMul false (y_test.getD node [])) =
        y_val.getD node [] :=
      addRows_allZero_right _ _ (maskMul_false_allZero _) (by rw [maskMul_length, hl2, hl1])
    rw [hout]
    rfl
  · rw [maskMul_true]
    have hz : AllZero (addRows (maskMul false (y_train.getD node []))
        (maskMul false (y_val.getD node []))) :=
      addRows_allZero _ _ (maskMul_false_allZero _) (maskMul_false_allZero _)
    have hlen : (addRows (maskMul false (y_train.getD node []))
        (maskMul false (y_val.getD node []))).length = (y_test.getD node []).length := by
      rw [addRows_length, maskMul_length, maskMul_length, hl1, hl2]
      omega
    rw [addRows_allZero_left _ _ hz hlen]
    rfl

theorem flatMap_eq_map_of_singleton {α β : Type} (l : List α) (f : α → List β) (g : α → β)
    (h : ∀ x ∈ l, f x = [g x]) : l.flatMap f = l.map g := by
  induction l with
  | nil => rfl
  | cons a as ih =>
    rw [List.flatMap_cons, h a (by simp), ih (fun x hx => h x (by simp [hx])), List.map_cons]
    rfl

/-- Claim C4 counterexample: a single-node input where no mask is set at the
node is read without any error: the node silently contributes no entry to y
(y comes out empty, shorter than the node count) instead of
MalformedInputError being raised. -/
theorem read_syn_no_mask_no_error :
    (read_syn_data [[0]] [[1]] [[1]] [[2]] [[3]] [false] [false] [false] [[0]]).y = [] := by
  show read_syn_y [[1]] [[2]] [[3]] [false] [false] [false] = []
  have hz : AllZero (combinedRow [[1]] [[2]] [[3]] [false] [false] [false] 0) :=
    addRows_allZero _ _
      (addRows_allZero _ _ (maskMul_false_allZero _) (maskMul_false_allZero _))
      (maskMul_false_allZero _)
  show nonzeroIdx (combinedRow [[1]] [[2]] [[3]] [false] [false] [false] 0) 0 ++ [] = []
  rw [nonzeroIdx_allZero _ _ hz]
  rfl

/-- Claim C4 (amended): the label vector is numpy.where over the mask-weighted
sum train_mask*y_train + val_mask*y_val + test_mask*y_test; when at every node
exactly one mask holds, the rows have matching widths, and the selected row is
one-hot with class index c(node), the derived y lists exactly c(node) for each
node in order.  No validation is performed: a node whose selected row has zero
(or several) nonzero entries contributes zero (or several) entries to y
silently, and no MalformedInputError exists. -/
theorem read_syn_label_selection (adj features : List (List ℚ))
    (y_train y_val y_test : List (List ℚ))
    (train_mask val_mask test_mask : List Bool)
    (edge_label_matrix : List (List ℚ)) (c : ℕ → ℕ)
    (hlen : ∀ node, node < y_train.length →
      (y_val.getD node []).length = (y_train.getD node []).length ∧
      (y_test.getD node []).length = (y_train.getD node []).length)
    (hmask : ∀ node, node < y_train.length → oneMask train_mask val_mask test_mask node)
    (hhot : ∀ node, node < y_train.length →
      isOneHot (pickRow y_train y_val y_test train_mask val_mask test_mask node) (c node)) :
    (read_syn_data adj features y_train y_val y_test train_mask val_mask test_mask
      edge_label_matrix).y = (List.range y_train.length).map c := by
  show read_syn_y y_train y_val y_test train_mask val_mask test_mask = _
  rw [read_syn_y]
  apply flatMap_eq_map_of_singleton
  intro node hnode
  rw [List.mem_range] at hnode
  rw [combinedRow_eq_pickRow _ _ _ _ _ _ _ (hmask node hnode) (hlen node hnode).1
    (hlen node hnode).2]
  exact npWhere1_oneHot _ _ (hhot node hnode)

/-- Claim C4 witness: a concrete two-node input where node 0 is a train node
with one-hot row [1, 0] and node 1 is a val node with one-hot row [0, 1]
yields y = [0, 1]. -/
theorem read_syn_label_selection_witness :
    (read_syn_data [[0]] [[1], [1]] [[1, 0], [9, 9]] [[0, 0], [0, 1]] [[0, 0], [0, 0]]
      [true, false] [false, true] [false, false] [[0]]).y =
      (List.range 2).map (fun n => n) := by
  have h := read_syn_label_selection [[0]] [[1], [1]] [[1, 0], [9, 9]] [[0, 0], [0, 1]]
    [[0, 0], [0, 0]] [true, false] [false, true] [false, false] [[0]] (fun n => n)
    (by decide) (by decide) (by decide)
  exact h

theorem collate_slices_length {L : Type} (rs : List (Data L)) :
    (collate rs).slices.length = rs.length := by
  induction rs with
  | nil => rfl
  | cons r rs ih => simp [collate, ih]

theorem collate_x {L : Type} (rs : List (Data L)) :
    (collate rs).x = rs.flatMap (fun r => r.x) := by
  induction rs with
  | nil => rfl
  | cons r rs ih => simp [collate, ih]

theorem collate_y {L : Type} (rs : List (Data L)) :
    (collate rs).y = rs.flatMap (fun r => r.y) := by
  induction rs with
  | nil => rfl
  | cons r rs ih => simp [collate, ih]

theorem collate_slices_bounds {L : Type} (rs : List (Data L)) :
    ∀ s ∈ (collate rs).slices, s.xs ≤ s.xe ∧ s.es ≤ s.ee ∧ s.ys ≤ s.ye := by
  induction rs with
  | nil =>
    intro s hs
    simp [collate] at hs
  | cons r rs ih =>
    intro s hs
    simp only [collate, List.mem_cons] at hs
    rcases hs with rfl | hs
    · refine ⟨?_, ?_, ?_⟩ <;> simp
    · obtain ⟨t, ht, rfl⟩ := List.mem_map.mp hs
      obtain ⟨h1, h2, h3⟩ := ih t ht
      exact ⟨by simp [shiftSlice]; omega, by simp [shiftSlice]; omega,
        by simp [shiftSlice]; omega⟩

theorem collate_slices_head {L : Type} (rs : List (Data L)) :
    ∀ s ∈ (collate rs).slices.head?, s.xs = 0 ∧ s.es = 0 ∧ s.ys = 0 := by
  match rs with
  | [] =>
    intro s hs
    simp [collate] at hs
  | r :: rs =>
    intro s hs
    simp only [collate, List.head?_cons, Option.mem_def, Option.some.injEq] at hs
    subst hs
    exact ⟨rfl, rfl, rfl⟩

theorem collate_slices_chain {L : Type} (rs : List (Data L)) :
    List.Chain' (fun s t => s.xe = t.xs ∧ s.ee = t.es ∧ s.ye = t.ys) (collate rs).slices := by
  induction rs with
  | nil => simp [collate]
  | cons r rs ih =>
    simp only [collate]
    rw [List.chain'_cons']
    constructor
    · intro b hb
      rw [List.head?_map, Option.mem_def] at hb
      obtain ⟨a, ha, rfl⟩ := Option.map_eq_some'.mp hb
      obtain ⟨hz1, hz2, hz3⟩ := collate_slices_head rs a (by rw [ha]; rfl)
      exact ⟨by simp [shiftSlice, hz1], by simp [shiftSlice, hz2], by simp [shiftSlice, hz3]⟩
    · rw [List.chain'_map]
      refine List.Chain'.imp ?_ ih
      intro a b h
      exact ⟨by simp [shiftSlice, h.1], by simp [shiftSlice, h.2.1], by simp [shiftSlice, h.2.2]⟩

theorem collate_slices_sum_x {L : Type} (rs : List (Data L)) :
    ((collate rs).slices.map (fun s => s.xe - s.xs)).sum = (collate rs).x.length := by
  induction rs with
  | nil => rfl
  | cons r rs ih =>
    simp only [collate, List.map_cons, List.sum_cons, List.map_map, List.length_append]
    have hmap : ((fun s => s.xe - s.xs) ∘
        shiftSlice r.x.length r.edge_index.length r.y.length) = fun s => s.xe - s.xs := by
      funext s
      simp only [Function.comp_apply, shiftSlice]
      omega
    rw [hmap, ih]
    omega

theorem collate_slices_sum_e {L : Type} (rs : List (Data L)) :
    ((collate rs).slices.map (fun s => s.ee - s.es)).sum = (collate rs).edge_index.length := by
  induction rs with
  | nil => rfl
  | cons r rs ih =>
    simp only [collate, List.map_cons, List.sum_cons, List.map_map, List.length_append,
      List.length_map]
    have hmap : ((fun s => s.ee - s.es) ∘
        shiftSlice r.x.length r.edge_index.length r.y.length) = fun s => s.ee - s.es := by
      funext s
      simp only [Function.comp_apply, shiftSlice]
      omega
    rw [hmap, ih]
    omega

theorem collate_slices_sum_y {L : Type} (rs : List (Data L)) :
    ((collate rs).slices.map (fun s => s.ye - s.ys)).sum = (collate rs).y.length := by
  induction rs with
  | nil => rfl
  | cons r rs ih =>
    simp only [collate, List.map_cons, List.sum_cons, List.map_map, List.length_append]
    have hmap : ((fun s => s.ye - s.ys) ∘
        shiftSlice r.x.length r.edge_index.length r.y.length) = fun s => s.ye - s.ys := by
      funext s
      simp only [Function.comp_apply, shiftSlice]
      omega
    rw [hmap, ih]
    omega

theorem getD_map_of_lt {α β : Type} [Inhabited α] [Inhabited β] (f : α → β) (l : List α)
    (k : ℕ) (h : k < l.length) : (l.map f).getD k default = f (l.getD k default) := by
  rw [List.getD_eq_getElem _ _ (by simpa using h), List.getElem_map,
    List.getD_eq_getElem _ _ h]

theorem collate_slice_xs {L : Type} (rs : List (Data L)) :
    ∀ k, k < rs.length → ((collate rs).slices.getD k default).xs =
      ((rs.take k).map (fun r => r.x.length)).sum := by
  induction rs with
  | nil =>
    intro k hk
    simp at hk
  | cons r rs ih =>
    intro k hk
    match k with
    | 0 => rfl
    | k + 1 =>
      have hk2 : k < rs.length := by
        simp at hk
        omega
      simp only [collate, List.getD_cons_succ, List.take_succ_cons, List.map_cons,
        List.sum_cons]
      rw [getD_map_of_lt _ _ _ (by rw [collate_slices_length]; exact hk2)]
      simp only [shiftSlice]
      rw [ih k hk2]
      omega

theorem collate_seg_x {L : Type} (rs : List (Data L)) :
    ∀ k, k < rs.length →
      seg (collate rs).x ((collate rs).slices.getD k default).xs
        ((collate rs).slices.getD k default).xe = (rs.getD k default).x := by
  induction rs with
  | nil =>
    intro k hk
    simp at hk
  | cons r rs ih =>
    intro k hk
    match k with
    | 0 =>
      show seg (r.x ++ (collate rs).x) 0 r.x.length = r.x
      rw [seg, List.drop_zero, Nat.sub_zero, List.take_left]
    | k + 1 =>
      have hk2 : k < rs.length := by
        simp at hk
        omega
      simp only [collate, List.getD_cons_succ]
      rw [getD_map_of_lt _ _ _ (by rw [collate_slices_length]; exact hk2)]
      simp only [shiftSlice, seg]
      have h1 : ((collate rs).slices.getD k default).xe + r.x.length -
          (((collate rs).slices.getD k default).xs + r.x.length) =
          ((collate rs).slices.getD k default).xe -
            ((collate rs).slices.getD k default).xs := by
        omega
      have h2 : ((collate rs).slices.getD k default).xs + r.x.length =
          r.x.length + ((collate rs).slices.getD k default).xs := by
        omega
      rw [h1, h2, List.drop_append]
      exact ih k hk2

theorem collate_seg_y {L : Type} (rs : List (Data L)) :
    ∀ k, k < rs.length →
      seg (collate rs).y ((collate rs).slices.getD k default).ys
        ((collate rs).slices.getD k default).ye = (rs.getD k default).y := by
  induction rs with
  | nil =>
    intro k hk
    simp at hk
  | cons r rs ih =>
    intro k hk
    match k with
    | 0 =>
      show seg (r.y ++ (collate rs).y) 0 r.y.length = r.y
      rw [seg, List.drop_zero, Nat.sub_zero, List.take_left]
    | k + 1 =>
      have hk2 : k < rs.length := by
        simp at hk
        omega
      simp only [collate, List.getD_cons_succ]
      rw [getD_map_of_lt _ _ _ (by rw [collate_slices_length]; exact hk2)]
      simp only [shiftSlice, seg]
      have h1 : ((collate rs).slices.getD k default).ye + r.y.length -
          (((collate rs).slices.getD k default).ys + r.y.length) =
          ((collate rs).slices.getD k default).ye -
            ((collate rs).slices.getD k default).ys := by
        omega
      have h2 : ((collate rs).slices.getD k default).ys + r.y.length =
          r.y.length + ((collate rs).slices.getD k default).ys := by
        omega
      rw [h1, h2, List.drop_append]
      exact ih k hk2

theorem collate_seg_edge {L : Type} (rs : List (Data L)) :
    ∀ k, k < rs.length →
      seg (collate rs).edge_index ((collate rs).slices.getD k default).es
        ((collate rs).slices.getD k default).ee =
      (rs.getD k default).edge_index.map
        (fun e => (e.1 + ((collate rs).slices.getD k default).xs,
          e.2 + ((collate rs).slices.getD k default).xs)) := by
  induction rs with
  | nil =>
    intro k hk
    simp at hk
  | cons r rs ih =>
    intro k hk
    match k with
    | 0 =>
      show seg (r.edge_index ++ (collate rs).edge_index.map
          (fun e => (e.1 + r.x.length, e.2 + r.x.length))) 0 r.edge_index.length =
        r.edge_index.map (fun e => (e.1 + 0, e.2 + 0))
      rw [seg, List.drop_zero, Nat.sub_zero, List.take_left]
      simp
    | k + 1 =>
      have hk2 : k < rs.length := by
        simp at hk
        omega
      simp only [collate, List.getD_cons_succ]
      rw [getD_map_of_lt _ _ _ (by rw [collate_slices_length]; exact hk2)]
      simp only [shiftSlice, seg]
      have h1 : ((collate rs).slices.getD k default).ee + r.edge_index.length -
          (((collate rs).slices.getD k default).es + r.edge_index.length) =
          ((collate rs).slices.getD k default).ee -
            ((collate rs).slices.getD k default).es := by
        omega
      have h2 : ((collate rs).slices.getD k default).es + r.edge_index.length =
          r.edge_index.length + ((collate rs).slices.getD k default).es := by
        omega
      rw [h1, h2, List.drop_append]
      rw [← List.map_drop, ← List.map_take]
      have h3 := ih k hk2
      rw [seg] at h3
      rw [h3, List.map_map]
      apply List.map_congr_left
      intro e _
      simp only [Function.comp_apply, Prod.mk.injEq]
      omega

/-- Claim C7: collate builds a slice table with exactly one entry per record;
the ranges are well-formed, consecutive (each range starts where the previous
one ends, the first at 0) and their widths sum to the concatenated array
lengths, so they are non-overlapping and cover the arrays exactly; the slice
of record k starts at the running sum of the node counts of records 0..k-1
and cuts out exactly record k, its edge segment being record k's edges with
that node offset added to both endpoints; the empty list collates to the
empty bundle rather than an error. -/
theorem collate_spec {L : Type} (rs : List (Data L)) :
    (collate rs).slices.length = rs.length ∧
    (rs = [] → collate rs = { x := [], edge_index := [], y := [], slices := [] }) ∧
    (∀ s ∈ (collate rs).slices, s.xs ≤ s.xe ∧ s.es ≤ s.ee ∧ s.ys ≤ s.ye) ∧
    List.Chain' (fun s t => s.xe = t.xs ∧ s.ee = t.es ∧ s.ye = t.ys) (collate rs).slices ∧
    (∀ s ∈ (collate rs).slices.head?, s.xs = 0 ∧ s.es = 0 ∧ s.ys = 0) ∧
    ((collate rs).slices.map (fun s => s.xe - s.xs)).sum = (collate rs).x.length ∧
    ((collate rs).slices.map (fun s => s.ee - s.es)).sum = (collate rs).edge_index.length ∧
    ((collate rs).slices.map (fun s => s.ye - s.ys)).sum = (collate rs).y.length ∧
    (∀ k, k < rs.length →
      ((collate rs).slices.getD k default).xs =
        ((rs.take k).map (fun r => r.x.length)).sum ∧
      seg (collate rs).x ((collate rs).slices.getD k default).xs
        ((collate rs).slices.getD k default).xe = (rs.getD k default).x ∧
      seg (collate rs).edge_index ((collate rs).slices.getD k default).es
        ((collate rs).slices.getD k default).ee =
        (rs.getD k default).edge_index.map
          (fun e => (e.1 + ((collate rs).slices.getD k default).xs,
            e.2 + ((collate rs).slices.getD k default).xs)) ∧
      seg (collate rs).y ((collate rs).slices.getD k default).ys
        ((collate rs).slices.getD k default).ye = (rs.getD k default).y) :=
  ⟨collate_slices_length rs, fun h => by subst h; rfl, collate_slices_bounds rs,
    collate_slices_chain rs, collate_slices_head rs, collate_slices_sum_x rs,
    collate_slices_sum_e rs, collate_slices_sum_y rs,
    fun k hk => ⟨collate_slice_xs rs k hk, collate_seg_x rs k hk,
      collate_seg_edge rs k hk, collate_seg_y rs k hk⟩⟩

/-- Claim C7 witness: the empty record list collates to the empty bundle, and
on a concrete two-record list, the slice table has two entries and slice 1
starts at node offset 1 (the node count of record 0). -/
theorem collate_spec_witness :
    collate ([] : List (Data ℕ)) = { x := [], edge_index := [], y := [], slices := [] } ∧
    (collate [({ x := [[1]], edge_index := [(0, 0)], y := [0] } : Data ℕ),
      { x := [[2]], edge_index := [(0, 0)], y := [1] }]).slices.length = 2 ∧
    ((collate [({ x := [[1]], edge_index := [(0, 0)], y := [0] } : Data ℕ),
      { x := [[2]], edge_index := [(0, 0)], y := [1] }]).slices.getD 1 default).xs = 1 := by
  refine ⟨(collate_spec ([] : List (Data ℕ))).2.1 rfl, ?_, ?_⟩
  · rw [(collate_spec [({ x := [[1]], edge_index := [(0, 0)], y := [0] } : Data ℕ),
      { x := [[2]], edge_index := [(0, 0)], y := [1] }]).1]
    rfl
  · rw [((collate_spec [({ x := [[1]], edge_index := [(0, 0)], y := [0] } : Data ℕ),
      { x := [[2]], edge_index := [(0, 0)], y := [1] }]).2.2.2.2.2.2.2.2 1 (by decide)).1]
    rfl

/-- Claim C8 (code-bug evidence): on a freshly constructed dataset nothing is
loaded into self.data/self.slices yet, and process with a pre_filter hook (or
a pre_transform hook) fails while evaluating self.get over the unloaded
dataset, instead of applying the hook to the records the reader just
produced. -/
theorem syn_process_hooks_fresh_error :
    syn_process (some (fun _ => true)) none none
      [({ x := [[1]], edge_index := [], y := [0] } : Data ℕ)] =
      Except.error "AttributeError: self.data is not loaded" ∧
    syn_process none (some (fun d => d)) none
      [({ x := [[1]], edge_index := [], y := [0] } : Data ℕ)] =
      Except.error "AttributeError: self.data is not loaded" :=
  ⟨rfl, rfl⟩

theorem gen_class1_ylabel (pick : ℕ → ℕ) : (gen_class1 pick).y = [[0]] := by
  unfold gen_class1
  exact gen1Aux_y pick 18

theorem gen_class2_ylabel (pick : ℕ → ℕ → ℕ) : (gen_class2 pick).y = [[1]] := by
  unfold gen_class2
  exact gen2Aux_y pick 18

theorem ba_lrp_data_list_succ (n : ℕ) (pick1 : ℕ → ℕ → ℕ) (pick2 : ℕ → ℕ → ℕ → ℕ) :
    ba_lrp_data_list (n + 1) pick1 pick2 =
      ba_lrp_data_list n pick1 pick2 ++ [gen_class1 (pick1 n), gen_class2 (pick2 n)] := by
  unfold ba_lrp_data_list
  rw [List.range_succ, List.flatMap_append]
  rfl

theorem ba_lrp_data_list_length (n : ℕ) (pick1 : ℕ → ℕ → ℕ) (pick2 : ℕ → ℕ → ℕ → ℕ) :
    (ba_lrp_data_list n pick1 pick2).length = 2 * n := by
  induction n with
  | zero => rfl
  | succ n ih =>
    rw [ba_lrp_data_list_succ, List.length_append, ih]
    simp
    omega

theorem ba_lrp_alternates (n : ℕ) (pick1 : ℕ → ℕ → ℕ) (pick2 : ℕ → ℕ → ℕ → ℕ) :
    ∀ k, k < n →
      (ba_lrp_data_list n pick1 pick2).getD (2 * k) default = gen_class1 (pick1 k) ∧
      (ba_lrp_data_list n pick1 pick2).getD (2 * k + 1) default = gen_class2 (pick2 k) := by
  induction n with
  | zero =>
    intro k hk
    omega
  | succ n ih =>
    intro k hk
    rw [ba_lrp_data_list_succ]
    by_cases hkn : k < n
    · have hlt1 : 2 * k < (ba_lrp_data_list n pick1 pick2).length := by
        rw [ba_lrp_data_list_length]
        omega
      have hlt2 : 2 * k + 1 < (ba_lrp_data_list n pick1 pick2).length := by
        rw [ba_lrp_data_list_length]
        omega
      rw [List.getD_append _ _ _ _ hlt1, List.getD_append _ _ _ _ hlt2]
      exact ih k hkn
    · have hk : k = n := by omega
      subst hk
      generalize gen_class1 (pick1 k) = g1
      generalize gen_class2 (pick2 k) = g2
      have hge1 : (ba_lrp_data_list k pick1 pick2).length ≤ 2 * k := by
        rw [ba_lrp_data_list_length]
      have hge2 : (ba_lrp_data_list k pick1 pick2).length ≤ 2 * k + 1 := by
        rw [ba_lrp_data_list_length]
        omega
      rw [List.getD_append_right _ _ _ _ hge1, List.getD_append_right _ _ _ _ hge2,
        ba_lrp_data_list_length]
      have e1 : 2 * k - 2 * k = 0 := by omega
      have e2 : 2 * k + 1 - 2 * k = 1 := by omega
      rw [e1, e2]
      exact ⟨rfl, rfl⟩

theorem ba_lrp_labels (n : ℕ) (pick1 : ℕ → ℕ → ℕ) (pick2 : ℕ → ℕ → ℕ → ℕ) :
    (ba_lrp_process n pick1 pick2).y =
      (List.range n).flatMap (fun _ => [[(0 : ℚ)], [1]]) := by
  unfold ba_lrp_process
  rw [collate_y]
  induction n with
  | zero => rfl
  | succ n ih =>
    rw [ba_lrp_data_list_succ, List.flatMap_append, ih, List.range_succ,
      List.flatMap_append]
    have htail : ([gen_class1 (pick1 n), gen_class2 (pick2 n)].flatMap fun r => r.y) =
        [n].flatMap (fun _ => [[(0 : ℚ)], [1]]) := by
      simp [gen_class1_ylabel, gen_class2_ylabel]
    rw [htail]

/-- Claim C6: the generation path of BA_LRP.process builds exactly
2 * num_per_class graphs in alternating construction order class1, class2,
class1, class2, ...; collation preserves the count (one slice per graph) and
the order (the collated label sequence alternates [0], [1], ...); and
num_per_class = 0 yields the empty dataset rather than an error. -/
theorem ba_lrp_process_spec (n : ℕ) (pick1 : ℕ → ℕ → ℕ) (pick2 : ℕ → ℕ → ℕ → ℕ) :
    (ba_lrp_data_list n pick1 pick2).length = 2 * n ∧
    (∀ k, k < n →
      (ba_lrp_data_list n pick1 pick2).getD (2 * k) default = gen_class1 (pick1 k) ∧
      (ba_lrp_data_list n pick1 pick2).getD (2 * k + 1) default = gen_class2 (pick2 k)) ∧
    (ba_lrp_process n pick1 pick2).slices.length = 2 * n ∧
    (ba_lrp_process n pick1 pick2).y =
      (List.range n).flatMap (fun _ => [[(0 : ℚ)], [1]]) ∧
    (n = 0 → ba_lrp_process n pick1 pick2 =
      { x := [], edge_index := [], y := [], slices := [] }) := by
  refine ⟨ba_lrp_data_list_length n pick1 pick2, ba_lrp_alternates n pick1 pick2, ?_,
    ba_lrp_labels n pick1 pick2, ?_⟩
  · unfold ba_lrp_process
    rw [collate_slices_length, ba_lrp_data_list_length]
  · intro h
    subst h
    rfl

/-- Claim C6 witness: num_per_class = 3 yields 6 graphs; position 4 holds the
third class-1 graph; the collated label sequence is
[0], [1], [0], [1], [0], [1]; and num_per_class = 0 yields the empty
bundle. -/
theorem ba_lrp_process_spec_witness :
    (ba_lrp_data_list 3 (fun _ _ => 0) (fun _ _ j => j)).length = 6 ∧
    (ba_lrp_data_list 3 (fun _ _ => 0) (fun _ _ j => j)).getD 4 default =
      gen_class1 ((fun _ _ => 0 : ℕ → ℕ → ℕ) 2) ∧
    (ba_lrp_process 3 (fun _ _ => 0) (fun _ _ j => j)).y =
      [[(0 : ℚ)], [1], [0], [1], [0], [1]] ∧
    ba_lrp_process 0 (fun _ _ => 0) (fun _ _ j => j) =
      { x := [], edge_index := [], y := [], slices := [] } := by
  have h := ba_lrp_process_spec 3 (fun _ _ => 0) (fun _ _ j => j)
  have h0 := ba_lrp_process_spec 0 (fun _ _ => 0) (fun _ _ j => j)
  refine ⟨h.1, ?_, ?_, h0.2.2.2.2 rfl⟩
  · exact (h.2.1 2 (by omega)).1
  · rw [h.2.2.2.1]
    rfl

theorem reach_mono (E F : List (ℕ × ℕ)) (hEF : ∀ e ∈ E, e ∈ F) {a b : ℕ}
    (h : Reach E a b) : Reach F a b := by
  induction h with
  | refl => exact Reach.refl _
  | tail _ h2 ih => exact Reach.tail ih (hEF _ h2)

theorem goodInit (y0 : List (List ℚ)) : GoodGraph 2 (initData y0) := by
  refine ⟨rfl, ?_, ?_, ?_, ?_⟩
  · intro e he
    simp only [initData, List.mem_cons, List.not_mem_nil, or_false] at he
    rcases he with rfl | rfl <;> exact ⟨by omega, by omega⟩
  · intro a b hab
    simp only [initData, List.mem_cons, List.not_mem_nil, or_false, Prod.mk.injEq] at hab ⊢
    rcases hab with ⟨rfl, rfl⟩ | ⟨rfl, rfl⟩
    · right
      exact ⟨rfl, rfl⟩
    · left
      exact ⟨rfl, rfl⟩
  · intro v hv
    match v, hv with
    | 0, _ => exact ⟨(0, 1), by simp [initData], rfl⟩
    | 1, _ => exact ⟨(1, 0), by simp [initData], rfl⟩
  · intro v hv
    match v, hv with
    | 0, _ => exact Reach.refl 0
    | 1, _ => exact Reach.tail (Reach.refl 0) (by simp [initData])

theorem goodStep (d : Data (List ℚ)) (i : ℕ) (ps : List ℕ) (hne : ps ≠ [])
    (hlt : ∀ p ∈ ps, p < i) (hd : GoodGraph i d) :
    GoodGraph (i + 1) (class2Step d i ps) := by
  have hsub : ∀ e ∈ d.edge_index, e ∈ (class2Step d i ps).edge_index := by
    intro e he
    simp only [class2Step, List.mem_append]
    exact Or.inl he
  refine ⟨?_, ?_, ?_, ?_, ?_⟩
  · simp [class2Step, hd.nodes]
  · intro e he
    simp only [class2Step, List.mem_append, List.mem_flatMap] at he
    rcases he with he | ⟨p, hp, he⟩
    · obtain ⟨ha, hb⟩ := hd.ends e he
      exact ⟨by omega, by omega⟩
    · have hpi := hlt p hp
      simp only [List.mem_cons, List.not_mem_nil, or_false] at he
      rcases he with rfl | rfl
      · exact ⟨by simp; omega, by simp⟩
      · exact ⟨by simp, by simp; omega⟩
  · intro a b hab
    simp only [class2Step, List.mem_append, List.mem_flatMap] at hab ⊢
    rcases hab with hab | ⟨p, hp, hab⟩
    · exact Or.inl (hd.symm a b hab)
    · right
      refine ⟨p, hp, ?_⟩
      simp only [List.mem_cons, List.not_mem_nil, or_false, Prod.mk.injEq] at hab ⊢
      rcases hab with ⟨rfl, rfl⟩ | ⟨rfl, rfl⟩
      · right
        exact ⟨rfl, rfl⟩
      · left
        exact ⟨rfl, rfl⟩
  · intro v hv
    by_cases hvi : v < i
    · obtain ⟨e, he, hev⟩ := hd.source v hvi
      exact ⟨e, hsub e he, hev⟩
    · have hv : v = i := by omega
      subst hv
      match ps, hne with
      | p :: ps, _ =>
        refine ⟨(v, p), ?_, rfl⟩
        simp only [class2Step, List.mem_append, List.mem_flatMap]
        right
        exact ⟨p, by simp, by simp⟩
  · intro v hv
    by_cases hvi : v < i
    · exact reach_mono _ _ hsub (hd.conn v hvi)
    · have hv : v = i := by omega
      subst hv
      match ps, hne with
      | p :: ps, _ =>
        have hp := hlt p (by simp)
        have hreach : Reach (class2Step d v (p :: ps)).edge_index 0 p :=
          reach_mono _ _ hsub (hd.conn p hp)
        refine Reach.tail hreach ?_
        simp only [class2Step, List.mem_append, List.mem_flatMap]
        right
        exact ⟨p, by simp, by simp⟩

theorem class1Step_eq (d : Data (List ℚ)) (i p : ℕ) :
    class1Step d i p = class2Step d i [p] := by
  simp [class1Step, class2Step]

theorem goodGraph_gen1Aux (pick : ℕ → ℕ) (hp : ValidRun1 pick) :
    ∀ n, n ≤ 18 → GoodGraph (2 + n) (gen1Aux pick n) := by
  intro n
  induction n with
  | zero =>
    intro _
    exact goodInit [[0]]
  | succ n ih =>
    intro hn
    rw [gen1Aux_succ, class1Step_eq]
    exact goodStep (gen1Aux pick n) (2 + n) [pick (2 + n)] (by simp)
      (by
        intro q hq
        simp only [List.mem_cons, List.not_mem_nil, or_false] at hq
        subst hq
        exact hp (2 + n) (by omega) (by omega))
      (ih (by omega))

theorem goodGraph_gen2Aux (pick : ℕ → ℕ → ℕ) (hp : ValidRun2 pick) :
    ∀ n, n ≤ 18 → GoodGraph (2 + n) (gen2Aux pick n) := by
  intro n
  induction n with
  | zero =>
    intro _
    exact goodInit [[1]]
  | succ n ih =>
    intro hn
    rw [gen2Aux_succ]
    refine goodStep _ _ _ ?_ ?_ (ih (by omega))
    · unfold class2Picks
      split <;> simp
    · intro q hq
      obtain ⟨h0, h1, -⟩ := hp (2 + n) (by omega) (by omega)
      unfold class2Picks at hq
      split at hq
      · simp only [List.mem_cons, List.not_mem_nil, or_false] at hq
        subst hq
        exact h0
      · simp only [List.mem_cons, List.not_mem_nil, or_false] at hq
        rcases hq with rfl | rfl
        · exact h0
        · exact h1

theorem goodGraph_gen_class1 (pick : ℕ → ℕ) (hp : ValidRun1 pick) :
    GoodGraph 20 (gen_class1 pick) := by
  unfold gen_class1
  exact goodGraph_gen1Aux pick hp 18 (by omega)

theorem goodGraph_gen_class2 (pick : ℕ → ℕ → ℕ) (hp : ValidRun2 pick) :
    GoodGraph 20 (gen_class2 pick) := by
  unfold gen_class2
  exact goodGraph_gen2Aux pick hp 18 (by omega)

/-- Claim C9: for every run of either generator the resulting graph has
exactly 20 nodes, every edge_index endpoint lies in [0, 20), the edge list is
symmetric (each directed entry has its mirror), every node is the source of
at least one edge (degree at least 1), and the graph is connected (every node
is reachable from node 0), because each step attaches the new node to
existing nodes and edges are never removed. -/
theorem generators_invariants (pick1 : ℕ → ℕ) (pick2 : ℕ → ℕ → ℕ)
    (h1 : ValidRun1 pick1) (h2 : ValidRun2 pick2) :
    GoodGraph 20 (gen_class1 pick1) ∧ GoodGraph 20 (gen_class2 pick2) :=
  ⟨goodGraph_gen_class1 pick1 h1, goodGraph_gen_class2 pick2 h2⟩

/-- Claim C9 witness: for the concrete run that always attaches to node 0
(class 1) and the run that keeps draws 0 and 1 (class 2), the class-1 graph
has 20 nodes and node 19 of the class-2 graph is reachable from node 0. -/
theorem generators_invariants_witness :
    (gen_class1 (fun _ => 0)).x.length = 20 ∧
    Reach (gen_class2 (fun _ j => j)).edge_index 0 19 := by
  have hv1 : ValidRun1 (fun _ => 0) := by
    intro i hi _
    change 0 < i
    omega
  have hv2 : ValidRun2 (fun _ j => j) := by
    intro i hi _
    refine ⟨?_, ?_, fun _ => ?_⟩
    · change 0 < i
      omega
    · change 1 < i
      omega
    · change (1 : ℕ) ≠ 0
      decide
  have h := generators_invariants (fun _ => 0) (fun _ j => j) hv1 hv2
  exact ⟨h.1.nodes, h.2.conn 19 (by omega)⟩

theorem deg_pos_of_source (E : List (ℕ × ℕ)) (v : ℕ) (h : ∃ e ∈ E, e.1 = v) :
    0 < deg E v := by
  obtain ⟨e, he, hv⟩ := h
  rw [deg]
  exact List.length_pos.mpr (List.ne_nil_of_mem (List.mem_filter.mpr ⟨he, by simp [hv]⟩))

theorem length_le_sum_of_one_le (l : List ℕ) (h : ∀ x ∈ l, 1 ≤ x) : l.length ≤ l.sum := by
  induction l with
  | nil => simp
  | cons a as ih =>
    simp only [List.length_cons, List.sum_cons]
    have ha := h a (by simp)
    have has := ih (fun x hx => h x (by simp [hx]))
    omega

theorem sumDeg_ge (E : List (ℕ × ℕ)) (m : ℕ) (h : ∀ v, v < m → ∃ e ∈ E, e.1 = v) :
    m ≤ sumDeg E m := by
  rw [sumDeg]
  have hlen : ((List.range m).map (deg E)).length = m := by simp
  conv_lhs => rw [← hlen]
  apply length_le_sum_of_one_le
  intro x hx
  obtain ⟨v, hv, rfl⟩ := List.mem_map.mp hx
  rw [List.mem_range] at hv
  exact deg_pos_of_source E v (h v hv)

theorem epsilon_pos : 0 < epsilon := by
  rw [epsilon]
  norm_num

theorem weight2_pos (E : List (ℕ × ℕ)) (v : ℕ) : 0 < weight2 E v := by
  have h : (0 : ℚ) < (deg E v : ℚ) + epsilon :=
    add_pos_of_nonneg_of_pos (by positivity) epsilon_pos
  rw [weight2]
  exact one_div_pos.mpr h

/-- Claim C10: at every growth step i = 2+n of valid runs, the class-1
categorical weights are well-defined: the degree sum over the i existing
nodes (what probs divides by) is at least i, in particular at least 2 and
nonzero, so deg/sum_deg never divides by zero; and in class 2 the added
epsilon makes every reciprocal-degree weight 1/(deg + epsilon) strictly
positive (and finite, being a rational). -/
theorem sampling_weights_defined (pick1 : ℕ → ℕ) (pick2 : ℕ → ℕ → ℕ)
    (h1 : ValidRun1 pick1) (h2 : ValidRun2 pick2) :
    ∀ n, n < 18 →
      (2 + n ≤ sumDeg (gen1Aux pick1 n).edge_index (2 + n) ∧
        0 < sumDeg (gen1Aux pick1 n).edge_index (2 + n)) ∧
      (∀ v, v < 2 + n → 0 < weight2 (gen2Aux pick2 n).edge_index v) := by
  intro n hn
  have hg1 := goodGraph_gen1Aux pick1 h1 n (by omega)
  have hsum : 2 + n ≤ sumDeg (gen1Aux pick1 n).edge_index (2 + n) :=
    sumDeg_ge _ _ hg1.source
  exact ⟨⟨hsum, by omega⟩, fun v _ => weight2_pos _ v⟩

/-- Claim C10 witness: at the first growth step of the concrete runs, the
class-1 degree sum over the 2 seed nodes is at least 2, and the class-2
reciprocal weight of node 0 is strictly positive. -/
theorem sampling_weights_defined_witness :
    2 ≤ sumDeg (gen1Aux (fun _ => 0) 0).edge_index 2 ∧
    0 < weight2 (gen2Aux (fun _ j => j) 0).edge_index 0 := by
  have hv1 : ValidRun1 (fun _ => 0) := by
    intro i hi _
    change 0 < i
    omega
  have hv2 : ValidRun2 (fun _ j => j) := by
    intro i hi _
    refine ⟨?_, ?_, fun _ => ?_⟩
    · change 0 < i
      omega
    · change 1 < i
      omega
    · change (1 : ℕ) ≠ 0
      decide
  have h := sampling_weights_defined (fun _ => 0) (fun _ j => j) hv1 hv2 0 (by omega)
  exact ⟨h.1.1, h.2 0 (by omega)⟩
